import Mathlib

/-!
Verification of the minecraft-fancy-rcon-cli core (help-text normalizer,
command-grammar parser, alias resolution, completion/hint/highlight engine)
against its natural-language specification.

The Rust source (src/main.rs, src/help_parser.rs) is shallowly embedded here:
strings are `List Char` (the inputs of interest are ASCII; Rust byte indices
coincide with character indices on them), the Rust regexes are replaced by
hand-rolled scanners that implement exactly the matching behaviour of the
concrete patterns used by the source (`^(/\w+)(.*)`, `<([^>]+)>`,
`\[<([^>]+)>\]`, `\(([^)]+)\)`, `\[([^\]]+\|[^\]]+)\]`,
`^(/\w+)\s*->\s*(\w+)`), `\w` is modelled as ASCII alphanumeric or
underscore and `\s` as ASCII whitespace, and the `HashMap` of
`parse_commands` is modelled as an association list whose iteration order is
insertion order.  The panicking `commands[&target]` lookup of
`parse_commands` is modelled by an `Option` result, `none` standing for the
process abort.  Recursive scanners take an explicit fuel argument equal to
the input length (every scanning step consumes at least one character, so
the fuel never runs out); this keeps every definition structurally
recursive and hence evaluable by the kernel.
-/

namespace Rcon

/-- The four argument shapes of the source (`Argument` in src/main.rs and the
`RequiredChoice` naming of src/help_parser.rs; main.rs calls that same
constructor `Choice`). -/
inductive Argument where
  | Required : List Char → Argument
  | Optional : List Char → Argument
  | RequiredChoice : List (List Char) → Argument
  | OptionalChoice : List (List Char) → Argument
deriving DecidableEq, Repr

/-- `CommandInfo` of src/main.rs: a command name with its argument list. -/
structure CommandInfo where
  name : List Char
  args : List Argument
deriving DecidableEq, Repr

/-- `rustyline::completion::Pair`: display text plus replacement text. -/
structure Pair where
  display : List Char
  replacement : List Char
deriving DecidableEq, Repr

/-- Rust `char::is_word` for the `\w` class of the used regexes (ASCII part). -/
def isWordChar (c : Char) : Bool := c.isAlphanum || c = '_'

/-- Split at the first occurrence of `c`: `some (before, after)` or `none`. -/
def breakAt (c : Char) : List Char → Option (List Char × List Char)
  | [] => none
  | x :: xs =>
    if x = c then some ([], xs)
    else (breakAt c xs).map fun p => (x :: p.1, p.2)

/-- Fuelled splitter on a separator character (Rust `str::split`). -/
def splitOnCharF (c : Char) : Nat → List Char → List (List Char)
  | 0, l => [l]
  | f + 1, l =>
    match breakAt c l with
    | none => [l]
    | some (b, a) => b :: splitOnCharF c f a

/-- Rust `str::split(c)`: the pieces between occurrences of `c`. -/
def splitOnChar (c : Char) (l : List Char) : List (List Char) :=
  splitOnCharF c l.length l

/-- Strip one trailing carriage return (part of Rust `str::lines`). -/
def stripTrailingCR (l : List Char) : List Char :=
  if l.getLast? = some '\r' then l.dropLast else l

/-- Rust `str::lines`: split at newlines, no trailing empty line, strip a
final carriage return from each line. -/
def rustLines (l : List Char) : List (List Char) :=
  let parts := splitOnChar '\n' l
  let parts := if parts.getLast? = some [] then parts.dropLast else parts
  parts.map stripTrailingCR

/-- Rust `str::trim_start` (ASCII whitespace). -/
def trimLeft (l : List Char) : List Char := l.dropWhile Char.isWhitespace

/-- Rust `str::trim_end` (ASCII whitespace). -/
def trimRight (l : List Char) : List Char :=
  (l.reverse.dropWhile Char.isWhitespace).reverse

/-- Rust `str::trim` (ASCII whitespace). -/
def trim (l : List Char) : List Char := trimRight (trimLeft l)

/-- Fuelled whitespace tokenizer (Rust `str::split_whitespace`). -/
def splitWSF : Nat → List Char → List (List Char)
  | 0, _ => []
  | _, [] => []
  | f + 1, c :: cs =>
    if c.isWhitespace then splitWSF f cs
    else
      (c :: cs.takeWhile fun x => !x.isWhitespace) ::
        splitWSF f (cs.dropWhile fun x => !x.isWhitespace)

/-- Rust `str::split_whitespace`: maximal non-whitespace runs. -/
def splitWS (l : List Char) : List (List Char) := splitWSF l.length l

/-- Matching of `^(?P<cmd>/\w+)(?P<args>.*)`: the command name is `/` plus
the longest leading run of word characters, the rest is the argument
descriptor. -/
def reCmd : List Char → Option (List Char × List Char)
  | [] => none
  | c :: rest =>
    if c = '/' then
      if rest.takeWhile isWordChar = [] then none
      else some ('/' :: rest.takeWhile isWordChar, rest.dropWhile isWordChar)
    else none

/-- The `\s*->\s*(?P<target>\w+)` part of the alias pattern, applied to what
follows the alias name with its leading whitespace already skipped; returns
the target already prefixed with `/` (`format!("/{}", target)` in the
source). -/
def reAliasArrow : List Char → Option (List Char)
  | '-' :: '>' :: r2 =>
    let t := (r2.dropWhile Char.isWhitespace).takeWhile isWordChar
    if t = [] then none else some ('/' :: t)
  | _ => none

/-- Matching of `^(?P<alias>/\w+)\s*->\s*(?P<target>\w+)`. -/
def reAlias : List Char → Option (List Char × List Char)
  | [] => none
  | c :: rest =>
    if c = '/' then
      let w := rest.takeWhile isWordChar
      if w = [] then none
      else
        (reAliasArrow ((rest.dropWhile isWordChar).dropWhile Char.isWhitespace)).map
          fun t => ('/' :: w, t)
    else none

/-- All (non-overlapping, leftmost-first) captures of `op([^cl]+)cl` — the
scanning behaviour of `<([^>]+)>` and `\(([^)]+)\)`: from each `op`, the
capture runs to the first `cl` after it provided it is non-empty. -/
def scanDelimF (op cl : Char) : Nat → List Char → List (List Char)
  | 0, _ => []
  | _ + 1, [] => []
  | f + 1, c :: rest =>
    if c = op then
      match breakAt cl rest with
      | some (b, a) =>
        if b = [] then scanDelimF op cl f rest else b :: scanDelimF op cl f a
      | none => scanDelimF op cl f rest
    else scanDelimF op cl f rest

/-- Captures of `<([^>]+)>` over the whole descriptor. -/
def scanRequired (l : List Char) : List (List Char) :=
  scanDelimF '<' '>' l.length l

/-- Captures of `\(([^)]+)\)` over the whole descriptor. -/
def scanChoice (l : List Char) : List (List Char) :=
  scanDelimF '(' ')' l.length l

/-- Captures of `\[<([^>]+)>\]`: a bracket immediately followed by an angle
placeholder whose closing `>` is immediately followed by `]`. -/
def scanOptionalF : Nat → List Char → List (List Char)
  | 0, _ => []
  | _ + 1, [] => []
  | f + 1, c :: rest =>
    if c = '[' then
      match rest with
      | '<' :: r2 =>
        match breakAt '>' r2 with
        | some (b, a) =>
          if b = [] then scanOptionalF f rest
          else
            match a with
            | ']' :: a2 => b :: scanOptionalF f a2
            | _ => scanOptionalF f rest
        | none => scanOptionalF f rest
      | _ => scanOptionalF f rest
    else scanOptionalF f rest

/-- Captures of `\[<([^>]+)>\]` over the whole descriptor. -/
def scanOptional (l : List Char) : List (List Char) :=
  scanOptionalF l.length l

/-- The content of a bracket group matches `[^\]]+\|[^\]]+` exactly when it
has a pipe that is neither its first nor its last character. -/
def hasInnerPipe (b : List Char) : Bool := ((b.drop 1).dropLast).contains '|'

/-- Captures of `\[([^\]]+\|[^\]]+)\]`: from each `[`, the capture runs to
the first `]` after it provided the content has an inner pipe. -/
def scanOptChoiceF : Nat → List Char → List (List Char)
  | 0, _ => []
  | _ + 1, [] => []
  | f + 1, c :: rest =>
    if c = '[' then
      match breakAt ']' rest with
      | some (b, a) =>
        if hasInnerPipe b then b :: scanOptChoiceF f a else scanOptChoiceF f rest
      | none => scanOptChoiceF f rest
    else scanOptChoiceF f rest

/-- Captures of `\[([^\]]+\|[^\]]+)\]` over the whole descriptor. -/
def scanOptChoice (l : List Char) : List (List Char) :=
  scanOptChoiceF l.length l

/-- `cap[1].split('|').map(|s| s.trim())` of the source. -/
def splitTrim (l : List Char) : List (List Char) := (splitOnChar '|' l).map trim

/-- The argument-descriptor scan shared by `parse_help_output` (src/main.rs)
and `parse_commands` (src/help_parser.rs): all required placeholders, then
all optional placeholders, then all parenthesized choice groups, then all
bracketed choice groups. -/
def parseArgs (argsStr : List Char) : List Argument :=
  (scanRequired argsStr).map Argument.Required
    ++ (scanOptional argsStr).map Argument.Optional
    ++ (scanChoice argsStr).map (fun b => Argument.RequiredChoice (splitTrim b))
    ++ (scanOptChoice argsStr).map (fun b => Argument.OptionalChoice (splitTrim b))

/-- One (already trimmed) line through `re_cmd` plus the argument scan. -/
def parseCmdLine (line : List Char) : Option CommandInfo :=
  match reCmd line with
  | some (name, argsStr) => some { name := name, args := parseArgs argsStr }
  | none => none

/-- `parse_help_output` of src/main.rs: commands of the lines that match
`re_cmd`, in line order. -/
def parse_help_output (help : List Char) : List CommandInfo :=
  (rustLines help).filterMap fun line => parseCmdLine (trim line)

/-- The command map of src/help_parser.rs, `HashMap` modelled as an
association list (iteration order is taken to be insertion order). -/
abbrev Registry := List (List Char × List Argument)

/-- `HashMap::get`-style lookup on the association-list model. -/
def lookupA {β : Type} : List (List Char × β) → List Char → Option β
  | [], _ => none
  | (k1, v) :: rest, k => if k1 = k then some v else lookupA rest k

/-- `HashMap::insert` on the association-list model: replace in place or
append. -/
def insertA {β : Type} : List (List Char × β) → List Char → β → List (List Char × β)
  | [], k, v => [(k, v)]
  | (k1, v1) :: rest, k, v =>
    if k1 = k then (k, v) :: rest else (k1, v1) :: insertA rest k v

/-- One line of the scanning loop of `parse_commands`: `re_cmd` may add a
command entry, `re_alias` may add an alias edge; both against the same
trimmed line. -/
def scanLine (acc : Registry × List (List Char × List Char)) (rawLine : List Char) :
    Registry × List (List Char × List Char) :=
  let line := trim rawLine
  let cm :=
    match parseCmdLine line with
    | some ci => insertA acc.1 ci.name ci.args
    | none => acc.1
  let am :=
    match reAlias line with
    | some (a, t) => insertA acc.2 a t
    | none => acc.2
  (cm, am)

/-- The full scanning loop of `parse_commands`: command map and alias map
after all lines. -/
def scanHelp (help : List Char) : Registry × List (List Char × List Char) :=
  (rustLines help).foldl scanLine ([], [])

/-- The alias-resolution loop of `parse_commands`.  The source indexes the
command map with `commands[&target]`, which panics when the target is
absent; that abort is modelled by `none`. -/
def resolveAliases (cm : Registry) : List (List Char × List Char) → Option Registry
  | [] => some cm
  | (a, t) :: rest =>
    match lookupA cm t with
    | none => none
    | some args => resolveAliases (insertA cm a args) rest

/-- `parse_commands` of src/help_parser.rs: scan all lines, then resolve
every alias against the finished command map.  `none` models the panic of
the unchecked `commands[&target]` lookup. -/
def parse_commands (help : List Char) : Option Registry :=
  resolveAliases (scanHelp help).1 (scanHelp help).2

/-- The character-walking loop of `format_help_response` (identical in
src/main.rs and src/help_parser.rs): insert a newline before every `/` that
is not at the start and not already preceded by a newline.  `prev` is the
previously seen input character. -/
def fhrGo : Option Char → List Char → List Char
  | _, [] => []
  | prev, c :: cs =>
    if c = '/' ∧ prev ≠ none ∧ prev ≠ some '\n' then
      '\n' :: c :: fhrGo (some c) cs
    else c :: fhrGo (some c) cs

/-- `format_help_response`: the newline-insertion walk followed by `trim`. -/
def format_help_response (body : List Char) : List Char := trim (fhrGo none body)

/-- `choice.starts_with(words.last())` filtering and pair construction of
the argument-completion branch. -/
def choicePairs (lastW : List Char) (chs : List (List Char)) : List Pair :=
  (chs.filter fun ch => lastW.isPrefixOf ch).map fun ch =>
    { display := ch, replacement := ch ++ [' '] }

/-- `MinecraftCompleter::complete` after tokenization, by cases on the token
list exactly as the source matches on `words.len()`.  Note that the
one-token branch filters by the whole `line` (not the token) and returns
the bare command name, and that the multi-token branch computes the
replacement offset from `line.len()` (not from the cursor). -/
def completeAux (cmds : List CommandInfo) (line : List Char) :
    List (List Char) → Nat × List Pair
  | [] => (0, [])
  | [_] =>
    (0, (cmds.filter fun c => line.isPrefixOf c.name).map fun c =>
      { display := c.name, replacement := c.name })
  | w0 :: w1 :: rest =>
    match cmds.find? fun c => c.name == w0 with
    | none => (0, [])
    | some cmd =>
      if cmd.args.length < (w0 :: w1 :: rest).length - 1 then (0, [])
      else
        (line.length - ((w1 :: rest).getLast (List.cons_ne_nil w1 rest)).length,
          match cmd.args.get? ((w0 :: w1 :: rest).length - 1 - 1) with
          | some (Argument.RequiredChoice chs) =>
            choicePairs ((w1 :: rest).getLast (List.cons_ne_nil w1 rest)) chs
          | some (Argument.OptionalChoice chs) =>
            choicePairs ((w1 :: rest).getLast (List.cons_ne_nil w1 rest)) chs
          | _ => [])

/-- `MinecraftCompleter::complete` of src/main.rs: tokenize the input up to
the cursor (`&line[..pos]`, `trim_start`, `split_whitespace`) and dispatch
on the token count. -/
def complete (cmds : List CommandInfo) (line : List Char) (pos : Nat) :
    Nat × List Pair :=
  completeAux cmds line (splitWS (trimLeft (line.take pos)))

/-- `MinecraftCompleter::hint` of src/main.rs (the cursor argument is unused
by the source). -/
def hint (cmds : List CommandInfo) (line : List Char) : Option (List Char) :=
  if line = [] ∨ line = ['/'] ∨ line.head? ≠ some '/' ∨ line.contains ' ' = true then
    none
  else
    match cmds.find? fun c => line.isPrefixOf c.name && c.name != line with
    | some c => some (c.name.drop line.length)
    | none => none

/-- ANSI marker for a pending suggestion (yellow). -/
def ansiYellow : List Char := "\x1b[33m".data

/-- ANSI marker for text already on the line (green). -/
def ansiGreen : List Char := "\x1b[32m".data

/-- ANSI reset marker. -/
def ansiReset : List Char := "\x1b[0m".data

/-- `highlight_command` after tokenization, by cases on the token list.
Note that the source appends `&s[words[0].len()..]`, implicitly assuming
the first token starts at offset 0 of `s`. -/
def highlightAux (cmds : List CommandInfo) (s : List Char) (isSug : Bool) :
    List (List Char) → List Char
  | [] => s
  | w0 :: _ =>
    (if cmds.any fun c => c.name == w0 then
      (if isSug then ansiYellow else ansiGreen) ++ w0 ++ ansiReset
    else w0) ++ s.drop w0.length

/-- `highlight_command` of src/main.rs: style the first whitespace token
when it names a registry command. -/
def highlight_command (cmds : List CommandInfo) (s : List Char) (isSug : Bool) :
    List Char :=
  highlightAux cmds s isSug (splitWS s)

/-! ## General list lemmas -/

theorem length_dropWhile_le {α : Type} (p : α → Bool) (l : List α) :
    (l.dropWhile p).length ≤ l.length := by
  induction l with
  | nil => exact Nat.le_refl _
  | cons c cs ih =>
    rw [List.dropWhile_cons]
    by_cases h : p c = true
    · rw [if_pos h]
      exact Nat.le_trans ih (Nat.le_succ _)
    · rw [if_neg h]

theorem dropWhile_idem {α : Type} (p : α → Bool) (l : List α) :
    (l.dropWhile p).dropWhile p = l.dropWhile p := by
  induction l with
  | nil => rfl
  | cons c cs ih =>
    rw [List.dropWhile_cons]
    by_cases h : p c = true
    · rw [if_pos h]
      exact ih
    · rw [if_neg h, List.dropWhile_cons, if_neg h]

theorem takeWhile_all_append {α : Type} (p : α → Bool) (w d : List α)
    (h : ∀ c ∈ w, p c = true) :
    (w ++ d).takeWhile p = w ++ d.takeWhile p := by
  induction w with
  | nil => rfl
  | cons c cs ih =>
    have hc : p c = true := h c (List.mem_cons_self c cs)
    simp only [List.cons_append, List.takeWhile_cons, hc, if_true]
    rw [ih fun x hx => h x (List.mem_cons_of_mem c hx)]

theorem dropWhile_all_append {α : Type} (p : α → Bool) (w d : List α)
    (h : ∀ c ∈ w, p c = true) :
    (w ++ d).dropWhile p = d.dropWhile p := by
  induction w with
  | nil => rfl
  | cons c cs ih =>
    have hc : p c = true := h c (List.mem_cons_self c cs)
    simp only [List.cons_append, List.dropWhile_cons, hc, if_true]
    exact ih fun x hx => h x (List.mem_cons_of_mem c hx)

theorem drop_length_takeWhile {α : Type} (p : α → Bool) (l : List α) :
    l.drop (l.takeWhile p).length = l.dropWhile p := by
  induction l with
  | nil => rfl
  | cons c cs ih =>
    rw [List.takeWhile_cons, List.dropWhile_cons]
    by_cases h : p c = true
    · rw [if_pos h, if_pos h]
      simpa using ih
    · rw [if_neg h, if_neg h]
      rfl

theorem find?_congr {α : Type} (p q : α → Bool) :
    ∀ l : List α, (∀ a ∈ l, p a = q a) → l.find? p = l.find? q := by
  intro l
  induction l with
  | nil => intro _; rfl
  | cons a as ih =>
    intro h
    have ha : p a = q a := h a (List.mem_cons_self a as)
    rw [List.find?_cons, List.find?_cons, ← ha]
    cases hpa : p a with
    | true => rfl
    | false => exact ih fun x hx => h x (List.mem_cons_of_mem a hx)

/-! ## Trimming lemmas -/

theorem trimRight_eventually_prefix (l : List Char) : ∃ b, l = trimRight l ++ b := by
  refine ⟨(l.reverse.takeWhile Char.isWhitespace).reverse, ?_⟩
  conv_lhs =>
    rw [← List.reverse_reverse l,
      ← List.takeWhile_append_dropWhile (p := Char.isWhitespace) (l := l.reverse),
      List.reverse_append]
  rfl

theorem trimRight_idem (l : List Char) : trimRight (trimRight l) = trimRight l := by
  unfold trimRight
  rw [List.reverse_reverse, dropWhile_idem]

theorem trimLeft_trimRight (l : List Char) (h : trimLeft l = l) :
    trimLeft (trimRight l) = trimRight l := by
  obtain ⟨b, hb⟩ := trimRight_eventually_prefix l
  cases h2 : trimRight l with
  | nil => rfl
  | cons c r =>
    have hl : l = c :: (r ++ b) := by rw [hb, h2]; rfl
    unfold trimLeft at h
    rw [hl, List.dropWhile_cons] at h
    by_cases hc : c.isWhitespace = true
    · rw [if_pos hc] at h
      have h3 := length_dropWhile_le Char.isWhitespace (r ++ b)
      rw [h] at h3
      simp at h3
    · show (c :: r).dropWhile Char.isWhitespace = c :: r
      rw [List.dropWhile_cons, if_neg hc]

theorem trim_idem (l : List Char) : trim (trim l) = trim l := by
  show trimRight (trimLeft (trimRight (trimLeft l))) = trimRight (trimLeft l)
  rw [trimLeft_trimRight (trimLeft l) (dropWhile_idem Char.isWhitespace l),
    trimRight_idem]

/-! ## Normalized text (every `/` is line-initial or at position 0), for the
idempotence of `format_help_response` -/

/-- `Norm prev l`: in `l`, seen after a previous character `prev`, every
slash is preceded by a newline (or by nothing at all). -/
inductive Norm : Option Char → List Char → Prop where
  | nil : ∀ prev, Norm prev []
  | cons : ∀ (prev : Option Char) (c : Char) (cs : List Char),
      (c = '/' → prev = none ∨ prev = some '\n') → Norm (some c) cs →
      Norm prev (c :: cs)

theorem fhrGo_of_norm : ∀ {prev : Option Char} {l : List Char},
    Norm prev l → fhrGo prev l = l := by
  intro prev l h
  induction h with
  | nil prev => rfl
  | cons prev c cs hc _ ih =>
    have hcond : ¬(c = '/' ∧ prev ≠ none ∧ prev ≠ some '\n') := by
      rintro ⟨h1, h2, h3⟩
      rcases hc h1 with h4 | h4
      · exact h2 h4
      · exact h3 h4
    rw [fhrGo, if_neg hcond, ih]

theorem norm_fhrGo : ∀ (l : List Char) (prev : Option Char),
    Norm prev (fhrGo prev l) := by
  intro l
  induction l with
  | nil => intro prev; exact Norm.nil prev
  | cons c cs ih =>
    intro prev
    by_cases h : c = '/' ∧ prev ≠ none ∧ prev ≠ some '\n'
    · rw [fhrGo, if_pos h]
      refine Norm.cons _ _ _ (fun h2 => absurd h2 (by decide)) ?_
      exact Norm.cons _ _ _ (fun _ => Or.inr rfl) (ih (some c))
    · rw [fhrGo, if_neg h]
      refine Norm.cons _ _ _ (fun h2 => ?_) (ih (some c))
      by_cases hp : prev = none
      · exact Or.inl hp
      · by_cases hn : prev = some '\n'
        · exact Or.inr hn
        · exact absurd ⟨h2, hp, hn⟩ h

theorem norm_weaken {prev : Option Char} {l : List Char} (h : Norm prev l) :
    Norm none l := by
  cases h with
  | nil _ => exact Norm.nil none
  | cons _ c cs _ hn => exact Norm.cons none c cs (fun _ => Or.inl rfl) hn

theorem norm_append_left {l b : List Char} :
    ∀ {prev : Option Char}, Norm prev (l ++ b) → Norm prev l := by
  induction l with
  | nil => intro prev _; exact Norm.nil prev
  | cons c cs ih =>
    intro prev h
    cases h with
    | cons _ _ _ hc hn => exact Norm.cons prev c cs hc (ih hn)

theorem norm_dropWhile {l : List Char} :
    ∀ {prev : Option Char}, Norm prev l →
      Norm none (l.dropWhile Char.isWhitespace) := by
  induction l with
  | nil => intro prev _; exact Norm.nil none
  | cons c cs ih =>
    intro prev h
    cases h with
    | cons _ _ _ hc hn =>
      rw [List.dropWhile_cons]
      by_cases hw : c.isWhitespace = true
      · rw [if_pos hw]
        exact ih hn
      · rw [if_neg hw]
        exact Norm.cons none c cs (fun _ => Or.inl rfl) hn

theorem norm_trim {l : List Char} (h : Norm none l) : Norm none (trim l) := by
  have h1 : Norm none (trimLeft l) := norm_dropWhile h
  obtain ⟨b, hb⟩ := trimRight_eventually_prefix (trimLeft l)
  rw [hb] at h1
  exact norm_append_left h1

/-! ## Association-map lemmas and the alias-resolution panic -/

theorem lookupA_insertA {β : Type} (m : List (List Char × β)) (k : List Char)
    (v : β) (k1 : List Char) :
    lookupA (insertA m k v) k1 = if k1 = k then some v else lookupA m k1 := by
  induction m with
  | nil =>
    by_cases h : k1 = k
    · subst h; simp [insertA, lookupA]
    · rw [if_neg h]
      simp only [insertA, lookupA]
      rw [if_neg fun hh => h hh.symm]
  | cons p rest ih =>
    obtain ⟨k0, v0⟩ := p
    by_cases h0 : k0 = k
    · subst h0
      simp only [insertA, if_pos rfl]
      by_cases h1 : k1 = k0
      · subst h1; simp [lookupA]
      · rw [if_neg h1]
        simp only [lookupA]
        rw [if_neg fun hh => h1 hh.symm, if_neg fun hh => h1 hh.symm]
    · simp only [insertA, if_neg h0]
      by_cases h1 : k0 = k1
      · subst h1
        rw [if_neg h0]
        simp [lookupA]
      · simp only [lookupA, if_neg h1]
        exact ih

theorem mem_insertA {β : Type} {m : List (List Char × β)} {k : List Char}
    {v : β} {p : List Char × β} (h : p ∈ insertA m k v) :
    p = (k, v) ∨ p ∈ m := by
  induction m with
  | nil =>
    simp only [insertA] at h
    rcases List.mem_singleton.mp h with h1
    exact Or.inl h1
  | cons q rest ih =>
    obtain ⟨k0, v0⟩ := q
    by_cases h0 : k0 = k
    · simp only [insertA, if_pos h0] at h
      rcases List.mem_cons.mp h with h1 | h1
      · exact Or.inl h1
      · exact Or.inr (List.mem_cons_of_mem _ h1)
    · simp only [insertA, if_neg h0] at h
      rcases List.mem_cons.mp h with h1 | h1
      · exact Or.inr (h1 ▸ List.mem_cons_self _ _)
      · rcases ih h1 with h2 | h2
        · exact Or.inl h2
        · exact Or.inr (List.mem_cons_of_mem _ h2)

theorem reAlias_parseCmdLine {l a t : List Char} (h : reAlias l = some (a, t)) :
    ∃ args, parseCmdLine l = some { name := a, args := args } := by
  cases l with
  | nil => simp [reAlias] at h
  | cons c rest =>
    simp only [reAlias] at h
    by_cases hc : c = '/'
    · rw [if_pos hc] at h
      by_cases hw : rest.takeWhile isWordChar = []
      · rw [if_pos hw] at h; cases h
      · rw [if_neg hw] at h
        have ha : a = '/' :: rest.takeWhile isWordChar := by
          cases hm : reAliasArrow ((rest.dropWhile isWordChar).dropWhile
              Char.isWhitespace) with
          | none => rw [hm] at h; cases h
          | some t0 =>
            rw [hm] at h
            simp only [Option.map_some'] at h
            exact (Prod.mk.injEq _ _ _ _ ▸ (Option.some.injEq _ _ ▸ h)).1.symm
        refine ⟨parseArgs (rest.dropWhile isWordChar), ?_⟩
        simp only [parseCmdLine, reCmd, if_pos hc, if_neg hw, ha]
    · rw [if_neg hc] at h; cases h

/-- Invariant of the scanning loop: every alias name in the alias map is a
key of the command map (alias lines themselves match `re_cmd`). -/
def aliasKeysCovered (acc : Registry × List (List Char × List Char)) : Prop :=
  ∀ p ∈ acc.2, (lookupA acc.1 p.1).isSome = true

theorem scanLine_covered (acc : Registry × List (List Char × List Char))
    (l : List Char) (h : aliasKeysCovered acc) :
    aliasKeysCovered (scanLine acc l) := by
  intro p hp
  unfold scanLine at hp ⊢
  cases ha : reAlias (trim l) with
  | none =>
    simp only [ha] at hp ⊢
    cases hc : parseCmdLine (trim l) with
    | none => simp only [hc] at hp ⊢; exact h p hp
    | some ci =>
      simp only [hc] at hp ⊢
      rw [lookupA_insertA]
      by_cases hk : p.1 = ci.name
      · rw [if_pos hk]; rfl
      · rw [if_neg hk]; exact h p hp
  | some at0 =>
    obtain ⟨a, t⟩ := at0
    obtain ⟨args, hcmd⟩ := reAlias_parseCmdLine ha
    simp only [ha, hcmd] at hp ⊢
    rcases mem_insertA hp with h1 | h1
    · subst h1
      rw [lookupA_insertA, if_pos rfl]
      rfl
    · rw [lookupA_insertA]
      by_cases hk : p.1 = a
      · rw [if_pos hk]; rfl
      · rw [if_neg hk]; exact h p h1

theorem scanHelp_covered (help : List Char) : aliasKeysCovered (scanHelp help) := by
  unfold scanHelp
  have main : ∀ (ls : List (List Char)) (acc : Registry × List (List Char × List Char)),
      aliasKeysCovered acc → aliasKeysCovered (ls.foldl scanLine acc) := by
    intro ls
    induction ls with
    | nil => intro acc h; exact h
    | cons l rest ih =>
      intro acc h
      exact ih (scanLine acc l) (scanLine_covered acc l h)
  exact main (rustLines help) ([], []) (by intro p hp; cases hp)

theorem resolve_none (a t : List Char) :
    ∀ (am : List (List Char × List Char)) (cm : Registry),
      (∀ p ∈ am, (lookupA cm p.1).isSome = true) → (a, t) ∈ am →
      lookupA cm t = none → resolveAliases cm am = none := by
  intro am
  induction am with
  | nil => intro cm _ hmem; cases hmem
  | cons p rest ih =>
    obtain ⟨a0, t0⟩ := p
    intro cm hcov hmem ht
    unfold resolveAliases
    cases hl : lookupA cm t0 with
    | none => rfl
    | some args =>
      simp only
      rcases List.mem_cons.mp hmem with heq | hmem2
      · obtain ⟨rfl, rfl⟩ := Prod.mk.injEq a t a0 t0 ▸ heq
        rw [ht] at hl
        cases hl
      · have ha0 : (lookupA cm a0).isSome = true :=
          hcov (a0, t0) (List.mem_cons_self _ _)
        have hne : t ≠ a0 := by
          intro hh
          rw [← hh, ht] at ha0
          simp at ha0
        refine ih (insertA cm a0 args) ?_ hmem2 ?_
        · intro p hp
          rw [lookupA_insertA]
          by_cases hk : p.1 = a0
          · rw [if_pos hk]; rfl
          · rw [if_neg hk]
            exact hcov p (List.mem_cons_of_mem _ hp)
        · rw [lookupA_insertA, if_neg hne]
          exact ht

/-! ## Tokenizer lemmas -/

theorem splitWSF_congr : ∀ (f g : Nat) (l : List Char),
    l.length ≤ f → l.length ≤ g → splitWSF f l = splitWSF g l := by
  intro f
  induction f with
  | zero =>
    intro g l h1 _
    have hl : l = [] := List.length_eq_zero.mp (Nat.le_zero.mp h1)
    subst hl
    cases g <;> rfl
  | succ f ih =>
    intro g l h1 h2
    cases l with
    | nil => cases g <;> rfl
    | cons c cs =>
      cases g with
      | zero => simp at h2
      | succ g1 =>
        simp only [List.length_cons, Nat.succ_le_succ_iff] at h1 h2
        simp only [splitWSF]
        by_cases hc : c.isWhitespace = true
        · rw [if_pos hc, if_pos hc]
          exact ih g1 cs h1 h2
        · rw [if_neg hc, if_neg hc]
          congr 1
          have hd := length_dropWhile_le (fun x => !x.isWhitespace) cs
          exact ih g1 _ (Nat.le_trans hd h1) (Nat.le_trans hd h2)

theorem splitWS_cons_of_ws {c : Char} (cs : List Char) (hc : c.isWhitespace = true) :
    splitWS (c :: cs) = splitWS cs := by
  show splitWSF (cs.length + 1) (c :: cs) = splitWSF cs.length cs
  simp only [splitWSF, if_pos hc]

theorem splitWS_cons_of_not_ws {c : Char} (cs : List Char)
    (hc : ¬ c.isWhitespace = true) :
    splitWS (c :: cs) =
      (c :: cs.takeWhile fun x => !x.isWhitespace) ::
        splitWS (cs.dropWhile fun x => !x.isWhitespace) := by
  show splitWSF (cs.length + 1) (c :: cs) = _
  simp only [splitWSF, if_neg hc]
  congr 1
  exact splitWSF_congr cs.length _ _
    (length_dropWhile_le (fun x => !x.isWhitespace) cs) (Nat.le_refl _)

theorem splitWS_eq_nil_of_all_ws {l : List Char}
    (h : ∀ c ∈ l, c.isWhitespace = true) : splitWS l = [] := by
  induction l with
  | nil => rfl
  | cons c cs ih =>
    rw [splitWS_cons_of_ws cs (h c (List.mem_cons_self c cs))]
    exact ih fun x hx => h x (List.mem_cons_of_mem c hx)

theorem first_token_append_drop {c : Char} (cs : List Char)
    (w0 : List Char) (rest : List (List Char)) (hc : ¬ c.isWhitespace = true)
    (hsplit : splitWS (c :: cs) = w0 :: rest) :
    w0 ++ (c :: cs).drop w0.length = c :: cs := by
  rw [splitWS_cons_of_not_ws cs hc] at hsplit
  have hw0 : w0 = c :: cs.takeWhile fun x => !x.isWhitespace :=
    (List.cons.injEq _ _ _ _ ▸ hsplit).1.symm
  subst hw0
  simp only [List.length_cons, List.cons_append, List.drop_succ_cons]
  rw [drop_length_takeWhile, List.takeWhile_append_dropWhile]

theorem isPrefixOf_eq_decide (a b : List Char) :
    a.isPrefixOf b = decide (a <+: b) := by
  by_cases h : a <+: b
  · rw [List.isPrefixOf_iff_prefix.mpr h, decide_eq_true h]
  · rw [decide_eq_false h, ← Bool.not_eq_true, List.isPrefixOf_iff_prefix]
    exact h

/-! ## The claims -/

/-- Claim C7: normalization is idempotent — for every input text `x`,
`format_help_response (format_help_response x) = format_help_response x`. -/
theorem c7_normalize_idempotent (x : List Char) :
    format_help_response (format_help_response x) = format_help_response x := by
  have h2 : Norm none (trim (fhrGo none x)) := norm_trim (norm_weaken (norm_fhrGo x none))
  show trim (fhrGo none (trim (fhrGo none x))) = trim (fhrGo none x)
  rw [fhrGo_of_norm h2, trim_idem]

/-- Claim C2, counterexample: on the listing `"/tp -> teleport"` (whose alias
target `/teleport` is never defined), registry construction does not produce
a reported, recoverable error value — it hits the unchecked
`commands[&target]` index and panics, modelled here by `parse_commands`
returning `none` (the function has no error channel at all). -/
theorem c2_counterexample : parse_commands ("/tp -> teleport".data) = none := by
  decide

/-- Claim C2 (amended): for every listing text whose final alias map binds
some alias to a target absent from the final command map, registry
construction panics on the unchecked `commands[&target]` lookup (modelled as
`none`) — it neither reports a recoverable error nor returns any registry
(so no silent empty/default entry is observable). -/
theorem c2_alias_missing_target_panics (help a t : List Char)
    (hmem : (a, t) ∈ (scanHelp help).2)
    (hnone : lookupA (scanHelp help).1 t = none) :
    parse_commands help = none :=
  resolve_none a t (scanHelp help).2 (scanHelp help).1 (scanHelp_covered help)
    hmem hnone

/-- Witness for C2 (amended) at the concrete listing `"/tp -> teleport"`. -/
theorem c2_alias_missing_target_panics_witness :
    parse_commands ("/tp -> teleport".data) = none :=
  c2_alias_missing_target_panics ("/tp -> teleport".data) ("/tp".data)
    ("/teleport".data) (by decide) (by decide)

/-- Claim C6: with `"/teleport <target>"` and `"/tp -> teleport"` in either
relative order, the built registry maps `/tp` to exactly
`[Required("target")]` — alias resolution runs only after the whole text is
scanned. -/
theorem c6_alias_order_irrelevant :
    ((parse_commands ("/teleport <target>\n/tp -> teleport".data)).bind
        fun r => lookupA r ("/tp".data)) =
      some [Argument.Required ("target".data)] ∧
    ((parse_commands ("/tp -> teleport\n/teleport <target>".data)).bind
        fun r => lookupA r ("/tp".data)) =
      some [Argument.Required ("target".data)] := by
  decide

/-- Claim C3: the claim says `"/gamemode <mode> [<target>]"` parses to
exactly `[Required("mode"), Optional("target")]`, but the code's required
pattern `<([^>]+)>` also matches the `<target>` inside `[<target>]`, so the
code produces the three-element list
`[Required("mode"), Required("target"), Optional("target")]` — the optional
argument is double-counted, contradicting the one-to-one
`Required ↔ <arg>` / `Optional ↔ [<arg>]` correspondence documented on the
source's `Argument` enum. -/
theorem c3_optional_double_counted :
    parse_help_output ("/gamemode <mode> [<target>]".data) =
      [{ name := "/gamemode".data,
         args := [Argument.Required ("mode".data),
                  Argument.Required ("target".data),
                  Argument.Optional ("target".data)] }] ∧
    [Argument.Required ("mode".data), Argument.Required ("target".data),
        Argument.Optional ("target".data)] ≠
      [Argument.Required ("mode".data), Argument.Optional ("target".data)] := by
  decide

/-- Claim C1: every help line whose argument descriptor is
`" (add|query|set) <value>"` (any command name `/w` with `w` a non-empty run
of word characters) parses to the argument list
`[Required("value"), RequiredChoice(["add","query","set"])]` — required
placeholders come before choice groups regardless of textual order — and the
concrete line `"/time (add|query|set) <value>"` does so through the full
`parse_help_output` pipeline. -/
theorem c1_required_before_choice :
    (∀ w : List Char, w ≠ [] → (∀ c ∈ w, isWordChar c = true) →
      parseCmdLine (('/' :: w) ++ " (add|query|set) <value>".data) =
        some { name := '/' :: w,
               args := [Argument.Required ("value".data),
                        Argument.RequiredChoice
                          ["add".data, "query".data, "set".data]] }) ∧
    parse_help_output ("/time (add|query|set) <value>".data) =
      [{ name := "/time".data,
         args := [Argument.Required ("value".data),
                  Argument.RequiredChoice
                    ["add".data, "query".data, "set".data]] }] := by
  constructor
  · intro w hw hall
    have hd1 : (" (add|query|set) <value>".data).takeWhile isWordChar = [] := by
      decide
    have hd2 : (" (add|query|set) <value>".data).dropWhile isWordChar =
        " (add|query|set) <value>".data := by decide
    have hargs : parseArgs (" (add|query|set) <value>".data) =
        [Argument.Required ("value".data),
         Argument.RequiredChoice ["add".data, "query".data, "set".data]] := by
      decide
    simp only [List.cons_append, parseCmdLine, reCmd, if_pos rfl]
    rw [takeWhile_all_append isWordChar w _ hall, hd1, List.append_nil,
      if_neg hw, dropWhile_all_append isWordChar w _ hall, hd2]
    simp [hargs]
  · decide

/-- Witness for the quantified part of C1 at the command name `/time`. -/
theorem c1_required_before_choice_witness :
    parseCmdLine (('/' :: "time".data) ++ " (add|query|set) <value>".data) =
      some { name := '/' :: "time".data,
             args := [Argument.Required ("value".data),
                      Argument.RequiredChoice
                        ["add".data, "query".data, "set".data]] } :=
  c1_required_before_choice.1 ("time".data) (by decide) (by decide)

/-- Claim C4, counterexample: with registry `/gamemode`, `/gamerule`, line
`"/gamemode"` and cursor 4, the input up to the cursor is the single token
`"/gam"`, and `"/gamerule"` has that token as a prefix — yet neither
`"/gamerule"` nor any replacement with a trailing space is among the
candidates: the code filters by the whole line and returns the bare name. -/
theorem c4_counterexample :
    splitWS (trimLeft (("/gamemode".data).take 4)) = ["/gam".data] ∧
    ("/gam".data <+: "/gamerule".data) ∧
    ¬ ({ display := "/gamerule".data, replacement := "/gamerule ".data } ∈
        (complete [{ name := "/gamemode".data, args := [] },
                   { name := "/gamerule".data, args := [] }]
          ("/gamemode".data) 4).2) ∧
    (complete [{ name := "/gamemode".data, args := [] },
               { name := "/gamerule".data, args := [] }]
        ("/gamemode".data) 4).2 =
      [{ display := "/gamemode".data, replacement := "/gamemode".data }] := by
  decide

/-- Claim C4 (amended): when the input up to the cursor tokenizes to exactly
one token, the candidates are the registry command names having the whole
line (not the token) as a textual prefix, each candidate's replacement text
is the bare full command name (no trailing space), and the replacement
start offset is 0. -/
theorem c4_one_token_completion (cmds : List CommandInfo) (line : List Char)
    (pos : Nat) (w : List Char)
    (h : splitWS (trimLeft (line.take pos)) = [w]) :
    complete cmds line pos =
      (0, (cmds.filter fun c => decide (line <+: c.name)).map fun c =>
        { display := c.name, replacement := c.name }) := by
  unfold complete
  rw [h]
  simp only [completeAux]
  rw [List.filter_congr fun c _ => isPrefixOf_eq_decide line c.name]

/-- Witness for C4 (amended): completing token `"/gam"` against `/gamemode`
and `/gamerule` returns both bare names at offset 0. -/
theorem c4_one_token_completion_witness :
    complete [{ name := "/gamemode".data, args := [] },
              { name := "/gamerule".data, args := [] }] ("/gam".data) 4 =
      (0, [{ display := "/gamemode".data, replacement := "/gamemode".data },
           { display := "/gamerule".data, replacement := "/gamerule".data }]) :=
  (c4_one_token_completion _ ("/gam".data) 4 ("/gam".data) (by decide)).trans
    (by decide)

/-- Claim C5, counterexample: registry `/time` with a first-argument choice
`(add|query|set)`, line `"/time sXYZ"`, cursor 7.  The input up to the
cursor is `"/time s"` (two tokens, exact command, choice argument), so the
claim applies and predicts start offset `cursor - 1 = 6`; the code computes
the offset from the full line length and returns `10 - 1 = 9`. -/
theorem c5_counterexample :
    splitWS (trimLeft (("/time sXYZ".data).take 7)) =
      ["/time".data, "s".data] ∧
    (complete [{ name := "/time".data,
                 args := [Argument.RequiredChoice
                   ["add".data, "query".data, "set".data]] }]
        ("/time sXYZ".data) 7).1 = 9 ∧
    (9 : Nat) ≠ 7 - 1 := by
  decide

/-- Claim C5 (amended): with two or more tokens, an exact first-token
command match, and a choice variant at argument index (token count − 2),
the candidates are exactly the literal options having the last token as a
textual prefix, each replacement is the literal plus a trailing space, and
the replacement start offset is the full line length minus the length of
the last token (the cursor position enters only through tokenization). -/
theorem c5_choice_completion (cmds : List CommandInfo) (line : List Char)
    (pos : Nat) (w0 w1 : List Char) (ws1 : List (List Char))
    (cmd : CommandInfo) (chs : List (List Char))
    (hsplit : splitWS (trimLeft (line.take pos)) = w0 :: w1 :: ws1)
    (hfind : (cmds.find? fun c => c.name == w0) = some cmd)
    (harg : cmd.args.get? ((w0 :: w1 :: ws1).length - 2) =
        some (Argument.RequiredChoice chs) ∨
      cmd.args.get? ((w0 :: w1 :: ws1).length - 2) =
        some (Argument.OptionalChoice chs)) :
    complete cmds line pos =
      (line.length - ((w1 :: ws1).getLast (List.cons_ne_nil w1 ws1)).length,
        (chs.filter fun ch =>
            decide (((w1 :: ws1).getLast (List.cons_ne_nil w1 ws1)) <+: ch)).map
          fun ch => { display := ch, replacement := ch ++ [' '] }) := by
  have hlen : (w0 :: w1 :: ws1).length - 1 - 1 = (w0 :: w1 :: ws1).length - 2 := by
    simp only [List.length_cons]
    omega
  have hidx : (w0 :: w1 :: ws1).length - 2 < cmd.args.length := by
    rcases harg with h | h
    · obtain ⟨hh, _⟩ := List.get?_eq_some.mp h
      exact hh
    · obtain ⟨hh, _⟩ := List.get?_eq_some.mp h
      exact hh
  have hnot : ¬ (cmd.args.length < (w0 :: w1 :: ws1).length - 1) := by
    simp only [List.length_cons] at hidx ⊢
    omega
  have hpairs : ∀ lw : List Char, choicePairs lw chs =
      (chs.filter fun ch => decide (lw <+: ch)).map
        fun ch => { display := ch, replacement := ch ++ [' '] } := by
    intro lw
    unfold choicePairs
    rw [List.filter_congr fun ch _ => isPrefixOf_eq_decide lw ch]
  unfold complete
  rw [hsplit]
  simp only [completeAux, hfind, if_neg hnot, hlen]
  rcases harg with h | h
  · have h2 : cmd.args[ws1.length]? = some (Argument.RequiredChoice chs) := by
      simpa using h
    simp [h2, hpairs]
  · have h2 : cmd.args[ws1.length]? = some (Argument.OptionalChoice chs) := by
      simpa using h
    simp [h2, hpairs]

/-- Witness for C5 (amended): completing `"/time s"` at the end of the line
returns exactly `"set "` at offset 6. -/
theorem c5_choice_completion_witness :
    complete [{ name := "/time".data,
                args := [Argument.RequiredChoice
                  ["add".data, "query".data, "set".data]] }]
        ("/time s".data) 7 =
      (6, [{ display := "set".data, replacement := "set ".data }]) :=
  (c5_choice_completion _ ("/time s".data) 7 ("/time".data) ("s".data) []
    { name := "/time".data,
      args := [Argument.RequiredChoice ["add".data, "query".data, "set".data]] }
    ["add".data, "query".data, "set".data]
    (by decide) (by decide) (Or.inl (by decide))).trans (by decide)

/-- Claim C8, counterexample: the line `"/tp"` passes every gate condition
(non-empty, not bare `/`, starts with `/`, no space) and the registry name
`/tp` has the line as a textual prefix, yet `hint` returns nothing — the
source additionally demands `cmd.name != line`, so an exact match yields no
suggestion instead of the empty-suffix suggestion the claim implies. -/
theorem c8_counterexample :
    ("/tp".data ≠ ([] : List Char)) ∧ ("/tp".data ≠ ['/']) ∧
    (("/tp".data).head? = some '/') ∧ (("/tp".data).contains ' ' = false) ∧
    ("/tp".data <+: "/tp".data) ∧
    hint [{ name := "/tp".data, args := [] }] ("/tp".data) = none := by
  decide

/-- Claim C8 (amended): when the line is non-empty, not exactly `/`, starts
with `/` and contains no space, `hint` returns the suffix beyond the typed
text of the first registry command name having the line as a *strict*
textual prefix (and nothing when no name does); for every line that is
empty, exactly `/`, not `/`-initial, or contains a space, `hint` returns
nothing. -/
theorem c8_hint_strict_match :
    (∀ (cmds : List CommandInfo) (line : List Char),
      line = [] ∨ line = ['/'] ∨ line.head? ≠ some '/' ∨
          line.contains ' ' = true →
      hint cmds line = none) ∧
    (∀ (cmds : List CommandInfo) (line : List Char),
      line ≠ [] → line ≠ ['/'] → line.head? = some '/' →
      line.contains ' ' = false →
      hint cmds line =
        (cmds.find? fun c => decide (line <+: c.name ∧ c.name ≠ line)).map
          fun c => c.name.drop line.length) := by
  constructor
  · intro cmds line h
    unfold hint
    rw [if_pos h]
  · intro cmds line h1 h2 h3 h4
    have h4' : ¬ (' ' ∈ line) := by simpa using h4
    unfold hint
    rw [if_neg (by simp [h1, h2, h3, h4'])]
    have hpt : ∀ c ∈ cmds, (line.isPrefixOf c.name && c.name != line) =
        decide (line <+: c.name ∧ c.name ≠ line) := by
      intro c _
      by_cases hp : line <+: c.name <;> by_cases hn : c.name = line <;>
        simp [hp, hn, isPrefixOf_eq_decide]
    rw [find?_congr _ _ cmds hpt]
    cases hf : cmds.find? fun c => decide (line <+: c.name ∧ c.name ≠ line) with
    | none => simp [hf]
    | some c => simp [hf]

/-- Witness for C8 (amended): `"/gamem"` hints to `"ode"`, and a line with a
space hints to nothing. -/
theorem c8_hint_strict_match_witness :
    hint [{ name := "/gamemode".data, args := [] }] ("/gamem".data) =
      some ("ode".data) ∧
    hint [{ name := "/gamemode".data, args := [] }] ("/time s".data) = none := by
  constructor
  · exact (c8_hint_strict_match.2 _ ("/gamem".data) (by decide) (by decide)
      (by decide) (by decide)).trans (by decide)
  · exact c8_hint_strict_match.1 _ ("/time s".data) (by decide)

/-- Claim C10: a line that exactly equals a registered command name and is
not a strict prefix of any registered name gets no hint — the source
excludes exact matches, so an empty-string hint is never produced. -/
theorem c10_exact_match_no_hint (cmds : List CommandInfo) (line : List Char)
    (_h1 : ∃ c ∈ cmds, c.name = line)
    (h2 : ∀ c ∈ cmds, line <+: c.name → c.name = line) :
    hint cmds line = none := by
  unfold hint
  by_cases hg : line = [] ∨ line = ['/'] ∨ line.head? ≠ some '/' ∨
      line.contains ' ' = true
  · rw [if_pos hg]
  · rw [if_neg hg]
    have hf : (cmds.find? fun c => line.isPrefixOf c.name && c.name != line) =
        none := by
      rw [List.find?_eq_none]
      intro c hc hcontra
      rw [Bool.and_eq_true] at hcontra
      obtain ⟨hp, hne⟩ := hcontra
      rw [List.isPrefixOf_iff_prefix] at hp
      exact bne_iff_ne.mp hne (h2 c hc hp)
    rw [hf]

/-- Witness for C10 at the registry `[/tp]` and the line `"/tp"`. -/
theorem c10_exact_match_no_hint_witness :
    hint [{ name := "/tp".data, args := [] }] ("/tp".data) = none :=
  c10_exact_match_no_hint _ ("/tp".data) (by decide) (by decide)

/-- Claim C9, counterexample: the text `" /xy"` has first token `"/xy"`
matching no registry command, so the claim says it is returned unchanged —
but the code appends `s[words[0].len()..]`, which assumes the token starts
at offset 0, and produces the garbled `"/xyy"`. -/
theorem c9_counterexample :
    highlight_command [] (" /xy".data) false = ("/xyy".data) ∧
    ("/xyy".data) ≠ (" /xy".data) := by
  decide

/-- Claim C9 (amended): for text whose first character is not whitespace,
a first token equal to some registry name is wrapped in the suggestion- or
line-style marker with the remainder after the token appended unmodified,
and an unmatched first token leaves the text unchanged; whitespace-only or
empty text is returned unchanged (texts with leading whitespace before a
token are garbled by the `s[words[0].len()..]` slice and are excluded). -/
theorem c9_highlight_first_token :
    (∀ (cmds : List CommandInfo) (s : List Char) (isSug : Bool)
        (w0 : List Char) (rest : List (List Char)),
      (∀ c ∈ s.take 1, c.isWhitespace = false) →
      splitWS s = w0 :: rest →
      ((cmds.any fun c => c.name == w0) = true →
        highlight_command cmds s isSug =
          (if isSug then ansiYellow else ansiGreen) ++ w0 ++ ansiReset ++
            s.drop w0.length) ∧
      ((cmds.any fun c => c.name == w0) = false →
        highlight_command cmds s isSug = s)) ∧
    (∀ (cmds : List CommandInfo) (s : List Char) (isSug : Bool),
      (∀ c ∈ s, c.isWhitespace = true) →
      highlight_command cmds s isSug = s) := by
  constructor
  · intro cmds s isSug w0 rest h0 hsplit
    cases s with
    | nil => simp [splitWS, splitWSF] at hsplit
    | cons c cs =>
      have hc : c.isWhitespace = false := h0 c (by simp)
      have hcb : ¬ c.isWhitespace = true := by simp [hc]
      constructor
      · intro hany
        unfold highlight_command
        rw [hsplit]
        simp only [highlightAux]
        rw [if_pos hany]
      · intro hany
        unfold highlight_command
        rw [hsplit]
        simp only [highlightAux]
        rw [if_neg (by simp [hany])]
        exact first_token_append_drop cs w0 rest hcb hsplit
  · intro cmds s isSug hws
    unfold highlight_command
    rw [splitWS_eq_nil_of_all_ws hws]
    rfl

/-- Witness for C9 (amended): a matched first token is styled green with the
tail appended, an unmatched one leaves the text unchanged, and whitespace-only
text is unchanged. -/
theorem c9_highlight_first_token_witness :
    highlight_command [{ name := "/tp".data, args := [] }] ("/tp x".data)
        false =
      ansiGreen ++ "/tp".data ++ ansiReset ++ " x".data ∧
    highlight_command [{ name := "/tp".data, args := [] }] ("/ab cd".data)
        false =
      ("/ab cd".data) ∧
    highlight_command [] ("   ".data) true = ("   ".data) := by
  refine ⟨?_, ?_, ?_⟩
  · exact ((c9_highlight_first_token.1 _ ("/tp x".data) false ("/tp".data)
      ["x".data] (by decide) (by decide)).1 (by decide)).trans (by decide)
  · exact (c9_highlight_first_token.1 _ ("/ab cd".data) false ("/ab".data)
      ["cd".data] (by decide) (by decide)).2 (by decide)
  · exact c9_highlight_first_token.2 [] ("   ".data) true (by decide)

end Rcon
